import Mathlib

/-
Verification development for the C.A.R.E. clinical-assistant repository.

The embedding works on `List Char` (Python strings), with `String` wrappers
at the boundary.  Python's `str` methods (`split`, `strip`, `replace`) and
the regular expressions used by the code are embedded as executable Lean
functions; `ast.literal_eval` is embedded as a fuel-indexed recursive-descent
reader of Python literal syntax; Python values flowing through the parser are
modelled by the inductive type `PyVal`.
-/

namespace CARE

/-- Python `str.strip()` whitespace test: space, tab, newline, carriage
return, vertical tab and form feed. -/
def isPySpace (c : Char) : Bool :=
  c = ' ' || c = '\t' || c = '\n' || c = '\r' || c = Char.ofNat 11 || c = Char.ofNat 12

/-- Python `str.strip()`: drop leading and trailing whitespace. -/
def pyStrip (l : List Char) : List Char :=
  ((l.dropWhile isPySpace).reverse.dropWhile isPySpace).reverse

/-- Python `str.strip(chars)`: drop leading and trailing characters that are
members of the given set. -/
def pyStripSet (cset : List Char) (l : List Char) : List Char :=
  ((l.dropWhile (cset.contains ·)).reverse.dropWhile (cset.contains ·)).reverse

/-- Does `pat` occur as a prefix of `l`?  (Equality test used by the
substring scanners below.) -/
def hasPrefixCL : List Char → List Char → Bool
  | [], _ => true
  | _ :: _, [] => false
  | p :: ps, c :: cs => p = c && hasPrefixCL ps cs

/-- Python `pat in s`: does `pat` occur as a contiguous substring of `l`? -/
def containsSub (pat : List Char) : List Char → Bool
  | [] => hasPrefixCL pat []
  | c :: cs => hasPrefixCL pat (c :: cs) || containsSub pat cs

/-- Python `s.replace(pat, "")` for a non-empty `pat`: remove every
(non-overlapping, left-to-right) occurrence of `pat`. -/
def removeSubFuel (pat : List Char) : Nat → List Char → List Char
  | 0, l => l
  | _ + 1, [] => []
  | fuel + 1, c :: cs =>
    if pat.isEmpty then c :: cs
    else if hasPrefixCL pat (c :: cs) then removeSubFuel pat fuel (cs.drop (pat.length - 1))
    else c :: removeSubFuel pat fuel cs

def removeSub (pat l : List Char) : List Char :=
  removeSubFuel pat l.length l

/-- Python `s.split(sep)` for a single-character separator selected by the
predicate `p`; also embeds `re.split` over a single-character class.
Keeps empty fields, as Python does. -/
def splitPredAux (p : Char → Bool) : List Char → List Char → List (List Char)
  | [], acc => [acc.reverse]
  | c :: cs, acc =>
    if p c then acc.reverse :: splitPredAux p cs []
    else splitPredAux p cs (c :: acc)

def splitPred (p : Char → Bool) (l : List Char) : List (List Char) :=
  splitPredAux p l []

/-- Python `s.split("**")`: scan left to right, cutting at each
(non-overlapping) occurrence of two consecutive star characters. -/
def splitStar2Aux : List Char → List Char → List (List Char)
  | [], acc => [acc.reverse]
  | [c], acc => [(c :: acc).reverse]
  | c :: c2 :: cs, acc =>
    if c = '*' && c2 = '*' then acc.reverse :: splitStar2Aux cs []
    else splitStar2Aux (c2 :: cs) (c :: acc)

def splitStar2 (l : List Char) : List (List Char) :=
  splitStar2Aux l []

/-- No occurrence of two consecutive stars (the `**` delimiter) in `l`. -/
def noStarStar : List Char → Bool
  | [] => true
  | [_] => true
  | c :: c2 :: cs => !(c = '*' && c2 = '*') && noStarStar (c2 :: cs)

/-- Model of a Python value as produced by `ast.literal_eval` restricted to
the literal forms relevant to this repository: strings, integers, booleans,
`None`, lists and dicts (a dict is an association list of key/value pairs). -/
inductive PyVal where
  | str : List Char → PyVal
  | intL : Int → PyVal
  | boolL : Bool → PyVal
  | noneL : PyVal
  | list : List PyVal → PyVal
  | dict : List (PyVal × PyVal) → PyVal

/-- Single and double quote and the brace characters, by code point. -/
def squote : Char := Char.ofNat 39

def dquote : Char := Char.ofNat 34

def lbrace : Char := Char.ofNat 123

def rbrace : Char := Char.ofNat 125

/-- Drop leading whitespace. -/
def skipWs (l : List Char) : List Char := l.dropWhile isPySpace

/-- Python string-literal body: scan to the closing quote `q`, decoding the
simple backslash escapes used in plan strings. -/
def pyUnescape (e : Char) : Char :=
  if e = 'n' then '\n' else if e = 't' then '\t' else if e = 'r' then '\r' else e

def pyStrBody (q : Char) : List Char → Option (List Char × List Char)
  | [] => Option.none
  | c :: cs =>
    if c = q then Option.some ([], cs)
    else if c = '\\' then
      match cs with
      | [] => Option.none
      | e :: cs2 => (pyStrBody q cs2).map (fun r => (pyUnescape e :: r.1, r.2))
    else (pyStrBody q cs).map (fun r => (c :: r.1, r.2))

/-- Decimal digit run to a natural number. -/
def digitsToNat (l : List Char) : Nat :=
  l.foldl (fun n c => 10 * n + (c.toNat - 48)) 0

/-- Integer token: one or more decimal digits. -/
def pvNumTok (l : List Char) : Option (Int × List Char) :=
  let ds := l.takeWhile Char.isDigit
  if ds.isEmpty then Option.none
  else Option.some ((digitsToNat ds : Int), l.drop ds.length)

mutual

/-- Fuel-indexed recursive-descent reader for Python literals: the model of
`ast.literal_eval` (restricted to strings, integers, booleans, `None`,
lists and dicts; `Option.none` models the `ValueError`/`SyntaxError`
raised on any other input). -/
def pvVal : Nat → List Char → Option (PyVal × List Char)
  | 0, _ => Option.none
  | fuel + 1, input =>
    match skipWs input with
    | [] => Option.none
    | c :: cs =>
      if c = '[' then
        match skipWs cs with
        | ']' :: rest => Option.some (PyVal.list [], rest)
        | _ => (pvItems fuel cs []).map (fun r => (PyVal.list r.1, r.2))
      else if c = lbrace then
        match skipWs cs with
        | d :: rest =>
          if d = rbrace then Option.some (PyVal.dict [], rest)
          else (pvPairs fuel cs []).map (fun r => (PyVal.dict r.1, r.2))
        | [] => Option.none
      else if c = squote then (pyStrBody squote cs).map (fun r => (PyVal.str r.1, r.2))
      else if c = dquote then (pyStrBody dquote cs).map (fun r => (PyVal.str r.1, r.2))
      else if c = '-' then (pvNumTok cs).map (fun r => (PyVal.intL (-r.1), r.2))
      else if c.isDigit then (pvNumTok (c :: cs)).map (fun r => (PyVal.intL r.1, r.2))
      else if hasPrefixCL (("True").data) (c :: cs) then
        Option.some (PyVal.boolL true, (c :: cs).drop 4)
      else if hasPrefixCL (("False").data) (c :: cs) then
        Option.some (PyVal.boolL false, (c :: cs).drop 5)
      else if hasPrefixCL (("None").data) (c :: cs) then
        Option.some (PyVal.noneL, (c :: cs).drop 4)
      else Option.none

/-- Comma-separated list items up to the closing bracket. -/
def pvItems : Nat → List Char → List PyVal → Option (List PyVal × List Char)
  | 0, _, _ => Option.none
  | fuel + 1, input, acc =>
    match pvVal fuel input with
    | Option.none => Option.none
    | Option.some (v, rest) =>
      match skipWs rest with
      | ',' :: rest2 =>
        match skipWs rest2 with
        | ']' :: rest3 => Option.some ((v :: acc).reverse, rest3)
        | _ => pvItems fuel rest2 (v :: acc)
      | ']' :: rest2 => Option.some ((v :: acc).reverse, rest2)
      | _ => Option.none

/-- Comma-separated `key : value` pairs up to the closing brace. -/
def pvPairs : Nat → List Char → List (PyVal × PyVal) →
    Option (List (PyVal × PyVal) × List Char)
  | 0, _, _ => Option.none
  | fuel + 1, input, acc =>
    match pvVal fuel input with
    | Option.none => Option.none
    | Option.some (k, rest) =>
      match skipWs rest with
      | ':' :: rest2 =>
        match pvVal fuel rest2 with
        | Option.none => Option.none
        | Option.some (v, rest3) =>
          match skipWs rest3 with
          | ',' :: rest4 =>
            match skipWs rest4 with
            | e :: rest5 =>
              if e = rbrace then Option.some (((k, v) :: acc).reverse, rest5)
              else pvPairs fuel rest4 ((k, v) :: acc)
            | [] => Option.none
          | e :: rest4 =>
            if e = rbrace then Option.some (((k, v) :: acc).reverse, rest4)
            else Option.none
          | [] => Option.none
      | _ => Option.none

end

/-- `ast.literal_eval(s)`: read one literal and require only trailing
whitespace after it; `Option.none` models an exception. -/
def literal_eval (s : String) : Option PyVal :=
  match pvVal (s.length + 2) s.data with
  | Option.some (v, rest) => if (skipWs rest).isEmpty then Option.some v else Option.none
  | Option.none => Option.none

/-- `isinstance(item, dict)`. -/
def isDictVal : PyVal → Bool
  | PyVal.dict _ => true
  | _ => false

/-- The failure markers recognised by `parse_treatment_plan`. -/
def noPlanMarker : List Char := ("No plan was generated").data

def failedMarker : List Char := ("Failed to generate").data

def planGuard (s : String) : Bool :=
  containsSub noPlanMarker s.data || containsSub failedMarker s.data

/-- The preamble phrase skipped by the markdown branch. -/
def preamblePhrase : List Char := ("Preliminary Treatment Plan").data

/-- `parts[i].strip().replace(const-colon, empty)` of the markdown branch. -/
def mdTitle (t : List Char) : List Char :=
  (pyStrip t).filter (fun c => c ≠ ':')

/-- `[detail.strip() for detail in content_block.strip().split(star) if detail.strip()]`. -/
def mdDetails (b : List Char) : List (List Char) :=
  ((splitPred (fun c => c = '*') (pyStrip b)).map pyStrip).filter (fun d => d ≠ [])

/-- A markdown-branch section record
`dict(condition = title, details = details)`. -/
def mkEntry (c : List Char) (ds : List (List Char)) : PyVal :=
  PyVal.dict
    [(PyVal.str (("condition").data), PyVal.str c),
     (PyVal.str (("details").data), PyVal.list (ds.map PyVal.str))]

/-- The `while i < len(parts) - 1` loop of `parse_treatment_plan`, already
applied to `parts[1:]` (the loop starts at index 1 and consumes the parts
in heading/body pairs). -/
def mdPairs : List (List Char) → List PyVal
  | [] => []
  | [_] => []
  | t :: b :: rest =>
    if containsSub preamblePhrase (mdTitle t) || (mdTitle t).isEmpty then mdPairs rest
    else if !(mdTitle t).isEmpty && !(mdDetails b).isEmpty then
      mkEntry (mdTitle t) (mdDetails b) :: mdPairs rest
    else mdPairs rest

/-- The markdown fallback branch of `parse_treatment_plan`. -/
def mdParse (s : String) : List PyVal :=
  mdPairs (splitStar2 s.data).tail

/-- `parse_treatment_plan` of `api_server.py`: failure-marker guard, then the
`ast.literal_eval` branch (returned only when it yields a list of dicts),
else the markdown fallback. -/
def parse_treatment_plan (plan_text : String) : List PyVal :=
  if planGuard plan_text then []
  else
    match literal_eval plan_text with
    | Option.some (PyVal.list xs) =>
      if xs.all isDictVal then xs else mdParse plan_text
    | _ => mdParse plan_text

/-! ## Condition extractor (`research_fetcher.extract_conditions`) -/

/-- Matcher for the regex tail `[a-z]*:` (zero or more lowercase letters then
a colon) as a prefix of the input. -/
def lcStarColon : List Char → Bool
  | [] => false
  | c :: cs => if c = ':' then true else c.isLower && lcStarColon cs

/-- Does `\n\n[A-Z][a-z]+:` match at the head of the input?  This is the
lookahead terminator of the `Conditions:` block regex. -/
def isTermAt : List Char → Bool
  | c1 :: c2 :: c3 :: c4 :: rest =>
    c1 = '\n' && c2 = '\n' && c3.isUpper && c4.isLower && lcStarColon rest
  | _ => false

/-- The lazy group `(.*?)` with DOTALL: everything up to the first position
where the terminator matches, or the whole rest if it never does (the `$`
alternative). -/
def takeUntilTerm : List Char → List Char
  | [] => []
  | c :: cs => if isTermAt (c :: cs) then [] else c :: takeUntilTerm cs

/-- `re.search` for a pattern with literal prefix `pat`: the text after the
first (leftmost) occurrence of `pat`, or `Option.none` when absent. -/
def afterFirst (pat : List Char) : List Char → Option (List Char)
  | [] => if pat.isEmpty then Option.some [] else Option.none
  | c :: cs =>
    if hasPrefixCL pat (c :: cs) then Option.some ((c :: cs).drop pat.length)
    else afterFirst pat cs

/-- `item.replace(disorderTag, empty).strip(dashSpace).strip()` of
`extract_conditions`. -/
def cleanCondition (item : List Char) : List Char :=
  pyStrip (pyStripSet ['-', ' '] (removeSub (("(disorder)").data) item))

/-- `extract_conditions` of `research_fetcher.py`: find the block between
`Conditions:` and the next `\n\n[A-Z][a-z]+:` heading (or end of text),
split it on newlines and semicolons, keep the items carrying the
`(disorder)` marker, clean each, and drop the ones that clean to empty. -/
def extract_conditions (patient_info : String) : List (List Char) :=
  match afterFirst (("Conditions:").data) patient_info.data with
  | Option.none => []
  | Option.some tail0 =>
    let ctext := takeUntilTerm tail0
    let items := splitPred (fun c => c = '\n' || c = ';') ctext
    ((items.filter (fun it => containsSub (("(disorder)").data) it)).map
      cleanCondition).filter (fun cl => cl ≠ [])

/-! ## Research fetcher search (`research_fetcher._perform_search`) -/

/-- A paper record from the search API: `Option.none` field = key absent. -/
structure Paper where
  title : Option String
  abstract : Option String

/-- One HTTP exchange outcome as the code distinguishes them: status 429,
any other transport/HTTP failure (a `RequestException`, including
`raise_for_status`), or a 200 body whose `data` field holds the papers
(`Option.none` entries model `null` papers). -/
inductive HttpResp where
  | tooMany
  | failure
  | ok (data : List (Option Paper))

def isOkResp : HttpResp → Bool
  | HttpResp.ok _ => true
  | _ => false

/-- `if paper and paper.get(abstractKey)`: the paper is present and its
abstract is a non-empty string. -/
def paperQualifies : Option Paper → Bool
  | Option.some p =>
    match p.abstract with
    | Option.some a => a ≠ ""
    | Option.none => false
  | Option.none => false

/-- `paper.get(titleKey, untitled)`. -/
def paperTitle (p : Paper) : String := p.title.getD "Untitled Paper"

/-- `re.sub` keeping word chars, whitespace and dashes, then `strip()`,
`replace(space, underscore)` and the 60-character cap. -/
def isWordChar (c : Char) : Bool := c.isAlphanum || c = '_'

def sanitizeTitle (t : List Char) : List Char :=
  ((pyStrip (t.filter (fun c => isWordChar c || isPySpace c || c = '-'))).map
    (fun c => if c = ' ' then '_' else c)).take 60

/-- The file location written for one qualifying paper. -/
def savedPath (dir : String) (p : Paper) : String :=
  dir ++ "/" ++ String.mk (sanitizeTitle (paperTitle p).data) ++ ".txt"

/-- The locations collected by the `for paper in results` loop. -/
def savedFiles (dir : String) (data : List (Option Paper)) : List String :=
  data.filterMap (fun op =>
    match op with
    | Option.some p =>
      if paperQualifies (Option.some p) then Option.some (savedPath dir p)
      else Option.none
    | Option.none => Option.none)

/-- Observable outcome of `_perform_search`: the returned locations, the
backoff sleeps performed (in seconds, in order), and how many HTTP
requests were issued. -/
structure SearchOutcome where
  files : List String
  sleeps : List Nat
  attempts : Nat

/-- The `for attempt in range(4)` retry loop of `_perform_search`, over the
list of attempt indices still to run.  `oracle` gives the HTTP outcome of
each attempt.  On 429 it sleeps `2 ^ attempt` and continues; on any other
failure it sleeps only when `attempt < 3`; on success it writes the
qualifying papers and returns them; falling off the loop returns no
files. -/
def searchLoop (oracle : Nat → HttpResp) (dir : String) : List Nat → SearchOutcome
  | [] => ⟨[], [], 0⟩
  | attempt :: moreAttempts =>
    match oracle attempt with
    | HttpResp.tooMany =>
      let r := searchLoop oracle dir moreAttempts
      ⟨r.files, 2 ^ attempt :: r.sleeps, r.attempts + 1⟩
    | HttpResp.failure =>
      if attempt < 3 then
        let r := searchLoop oracle dir moreAttempts
        ⟨r.files, 2 ^ attempt :: r.sleeps, r.attempts + 1⟩
      else
        let r := searchLoop oracle dir moreAttempts
        ⟨r.files, r.sleeps, r.attempts + 1⟩
    | HttpResp.ok data => ⟨savedFiles dir data, [], 1⟩

/-- `_perform_search` of `research_fetcher.py`: the loop runs over
`range(4)`. -/
def perform_search (oracle : Nat → HttpResp) (dir : String) : SearchOutcome :=
  searchLoop oracle dir [0, 1, 2, 3]

/-! ## Research file cleanup (`research_fetcher.cleanup_papers`) -/

/-- Filesystem state for the research directory: which paths exist, and an
oracle for which removals fail with an `OSError` (permissions etc.). -/
structure FileSys where
  hasFile : String → Bool
  removeFails : String → Bool

inductive OSErr where
  | oserr

/-- `os.remove`. -/
def osRemove (fs : FileSys) (p : String) : Except OSErr FileSys :=
  if fs.removeFails p then Except.error OSErr.oserr
  else Except.ok { fs with hasFile := fun q => if q = p then false else fs.hasFile q }

/-- The guarded body `if os.path.exists(path): os.remove(path)`. -/
def cleanupStep (fs : FileSys) (p : String) : Except OSErr FileSys :=
  if fs.hasFile p then osRemove fs p else Except.ok fs

/-- `cleanup_papers` of `research_fetcher.py`: per-path try/except that
catches the `OSError`, logs, and continues with the next path.  The
`Except` result type records that deletion can fail internally; the
catch keeps any error from escaping. -/
def cleanup_papers (fs : FileSys) (paths : List String) : Except OSErr FileSys :=
  match paths with
  | [] => Except.ok fs
  | p :: rest =>
    match cleanupStep fs p with
    | Except.ok fs2 => cleanup_papers fs2 rest
    | Except.error _ => cleanup_papers fs rest

/-! ## Ephemeral plan artifacts (`api_server.py`) -/

/-- What `json.load` finds in a plan file. -/
inductive FileData where
  | jsonList (xs : List PyVal)
  | jsonOther
  | notJson

/-- The temporary-directory store: contents of paths, plus a removal-failure
oracle for the `os.remove` in the `finally` block. -/
structure TmpStore where
  files : String → Option FileData
  removeFails : String → Bool

/-- `os.path.abspath(p).startswith(os.path.abspath(tmpDir))`, for `p` and
`tmpDir` already absolute and normalized (`abspath` is then the
identity). -/
def startswithCL (s pre : String) : Bool := hasPrefixCL pre.data s.data

def pathCheck (tmpDir p : String) : Bool := startswithCL p tmpDir

/-- Modelled from the spec: containment of a resolved absolute location in
the fixed temporary root — the location is the root itself or lies below
it, i.e. extends the root with a path separator.  (The spec phrase: the
resolved absolute location is contained within the fixed temporary
root.) -/
def specInsideTmpRoot (tmpDir p : String) : Bool :=
  p = tmpDir || startswithCL p (tmpDir ++ "/")

/-- Outcome of the `/generate-education-material` handler, by the branch
taken; `pdf` carries the plan handed to `generate_educational_pdf`. -/
inductive PdfOutcome where
  | pdf (plan : List PyVal)
  | invalidPath
  | badJson
  | notAList
  | notFound
  | pdfError

/-- HTTP status of each handler outcome, from the source's responses. -/
def statusOf : PdfOutcome → Nat
  | PdfOutcome.pdf _ => 200
  | PdfOutcome.invalidPath => 500
  | PdfOutcome.badJson => 500
  | PdfOutcome.notAList => 500
  | PdfOutcome.notFound => 404
  | PdfOutcome.pdfError => 500

/-- `generate_education_material_pdf` of `api_server.py`: the path-containment
check (reject with `ValueError` when the absolute path does not start with
the temporary root), the read (`FileNotFoundError` -> 404), `json.load`
(decode error -> 500), the list check (-> 500), PDF generation (failure
oracle `pdfFails` -> 500), and the `finally` block that deletes the file at
the supplied path whenever it exists, swallowing removal errors. -/
def generate_education_material_pdf (st : TmpStore) (tmpDir : String)
    (pdfFails : Bool) (p : String) : PdfOutcome × TmpStore :=
  let outcome :=
    if !pathCheck tmpDir p then PdfOutcome.invalidPath
    else
      match st.files p with
      | Option.none => PdfOutcome.notFound
      | Option.some FileData.notJson => PdfOutcome.badJson
      | Option.some FileData.jsonOther => PdfOutcome.notAList
      | Option.some (FileData.jsonList xs) =>
        if pdfFails then PdfOutcome.pdfError else PdfOutcome.pdf xs
  let st2 :=
    if p ≠ "" && (st.files p).isSome && !st.removeFails p then
      { st with files := fun q => if q = p then Option.none else st.files q }
    else st
  (outcome, st2)

/-- The plan-artifact location `TMP_DIR/patientId_timestamp_plan.json`. -/
def planPath (tmpDir patientId : String) (ts : Nat) : String :=
  tmpDir ++ "/" ++ patientId ++ "_" ++ toString ts ++ "_plan.json"

/-- Lines 123-127 of `api_server.py`: if the parsed plan is non-empty,
serialize it with `json.dump` to the artifact location and report that
location; otherwise create nothing.  Storing the decoded list value
models the dump/load pair, which is the identity on JSON-safe values. -/
def storePlan (st : TmpStore) (tmpDir patientId : String) (ts : Nat)
    (plan : List PyVal) : Option String × TmpStore :=
  if plan.isEmpty then (Option.none, st)
  else
    let p := planPath tmpDir patientId ts
    (Option.some p,
     { st with
        files := fun q => if q = p then Option.some (FileData.jsonList plan) else st.files q })

mutual

/-- JSON-safe Python values: `json.dump` then `json.load` is the identity
exactly when every dict key is a string (and values are recursively
JSON-safe). -/
def jsonSafePy : PyVal → Bool
  | PyVal.str _ => true
  | PyVal.intL _ => true
  | PyVal.boolL _ => true
  | PyVal.noneL => true
  | PyVal.list xs => jsonSafeList xs
  | PyVal.dict kvs => jsonSafePairs kvs

def jsonSafeList : List PyVal → Bool
  | [] => true
  | x :: xs => jsonSafePy x && jsonSafeList xs

def jsonSafePairs : List (PyVal × PyVal) → Bool
  | [] => true
  | kv :: kvs =>
    (match kv.1 with | PyVal.str _ => true | _ => false) && jsonSafePy kv.2 && jsonSafePairs kvs

end

/-! ## Derived notions used by the stated properties -/

/-- Python dict lookup by a string key (string-keyed entries only, which is
all the code ever stores). -/
def lookupKey (k : List Char) : List (PyVal × PyVal) → Option PyVal
  | [] => Option.none
  | kv :: kvs =>
    match kv.1 with
    | PyVal.str s => if s = k then Option.some kv.2 else lookupKey k kvs
    | _ => lookupKey k kvs

/-- The TreatmentPlan entry invariant of the spec: the entry is a record
with a non-empty `condition` string and a `details` list holding at least
one element. -/
def goodEntryB (e : PyVal) : Bool :=
  match e with
  | PyVal.dict kvs =>
    (match lookupKey (("condition").data) kvs with
     | Option.some (PyVal.str c) => !c.isEmpty
     | _ => false) &&
    (match lookupKey (("details").data) kvs with
     | Option.some (PyVal.list ds) => !ds.isEmpty
     | _ => false)
  | _ => false

/-- Modelled from the spec: the markdown rendering of one plan entry —
a bold-delimited heading (`**condition:**`) followed by bullet-delimited
details (`* detail`), exactly the shape of the spec scenario strings. -/
def bodyOf (ds : List (List Char)) : List Char :=
  (ds.map (fun d => ' ' :: '*' :: ' ' :: d)).flatten

def renderEntryCL (c : List Char) (ds : List (List Char)) : List Char :=
  '*' :: '*' :: (c ++ ':' :: '*' :: '*' :: bodyOf ds)

/-- Modelled from the spec: `render_as_markdown` — the rendered entries,
separated by single spaces (the shape the round-trip property of the spec
feeds back into `parse`).  A plan here is a list of
(condition, details) pairs. -/
def renderPlanCL : List (List Char × List (List Char)) → List Char
  | [] => []
  | [e] => renderEntryCL e.1 e.2
  | e :: rest => renderEntryCL e.1 e.2 ++ ' ' :: renderPlanCL rest

def render_as_markdown (plan : List (List Char × List (List Char))) : String :=
  String.mk (renderPlanCL plan)

/-- First and last character (when present) are not whitespace; such lists
are fixed points of `pyStrip`. -/
def noEdgeSpace (l : List Char) : Bool :=
  (match l.head? with
   | Option.some c => !isPySpace c
   | Option.none => true) &&
  (match l.getLast? with
   | Option.some c => !isPySpace c
   | Option.none => true)

/-- A detail string that the markdown renderer round-trips verbatim:
non-empty, no surrounding whitespace, and free of the bullet
delimiter. -/
def cleanDetailB (d : List Char) : Bool :=
  !d.isEmpty && noEdgeSpace d && !d.contains '*'

/-- A condition string that the markdown renderer round-trips verbatim:
non-empty, no surrounding whitespace, free of the delimiters `*` and `:`
(the parser deletes colons from headings), and not containing the
preamble phrase (such headings are skipped). -/
def cleanCondB (c : List Char) : Bool :=
  !c.isEmpty && noEdgeSpace c && !c.contains '*' && !c.contains ':' &&
    !containsSub preamblePhrase c

def cleanEntryB (e : List Char × List (List Char)) : Bool :=
  cleanCondB e.1 && !e.2.isEmpty && e.2.all cleanDetailB

/-- The `parts[1:]` token list produced by splitting a rendered plan on the
bold delimiter: alternating `condition:` headings and bullet bodies (every
body but the last carries the following separator space). -/
def planTokens : List (List Char × List (List Char)) → List (List Char)
  | [] => []
  | [e] => (e.1 ++ [':']) :: [bodyOf e.2]
  | e :: rest => (e.1 ++ [':']) :: (bodyOf e.2 ++ [' ']) :: planTokens rest

/-- Newline-joined lines (the body shape of a well-formed `Conditions:`
block). -/
def joinNL : List (List Char) → List Char
  | [] => []
  | [l] => l
  | l :: ls => l ++ '\n' :: joinNL ls

/-- The bullet-split tokens of a rendered body, after the leading empty
field: each detail padded by the renderer's spaces (all but the last carry
a trailing separator space). -/
def bodyToks (d : List Char) : List (List Char) → List (List Char)
  | [] => [' ' :: d]
  | d2 :: ds2 => (' ' :: d ++ [' ']) :: bodyToks d2 ds2

/-- The C4 scenario oracle: HTTP 429 three times, then 200 with exactly one
paper that has a non-empty abstract. -/
def oracleBackoff : Nat → HttpResp :=
  fun i =>
    if i < 3 then HttpResp.tooMany
    else HttpResp.ok [Option.some ⟨Option.some "Care Study", Option.some "An abstract"⟩]

/-! ## Theorems -/

/-- C1: the claim fails on the code, which is a slip against the source's own
stated intent (the comment says the check prevents escaping the temporary
directory).  The check is a raw string-prefix test without a separator, so
the location `/srv/care/tmp_evil/plan.json` — outside the temporary root
`/srv/care/tmp` — passes the check, the plan file there is read, and a PDF
is produced from it instead of an invalid-path rejection. -/
theorem pathcheck_accepts_location_outside_tmp_root :
    pathCheck ("/srv/care/tmp") ("/srv/care/tmp_evil/plan.json") = true ∧
    specInsideTmpRoot ("/srv/care/tmp") ("/srv/care/tmp_evil/plan.json") = false ∧
    (generate_education_material_pdf
        ⟨fun q => if q = ("/srv/care/tmp_evil/plan.json") then
            Option.some (FileData.jsonList [mkEntry (("A").data) [("d").data]])
          else Option.none,
         fun _ => false⟩
        ("/srv/care/tmp") false ("/srv/care/tmp_evil/plan.json")).1 =
      PdfOutcome.pdf [mkEntry (("A").data) [("d").data]] :=
  ⟨rfl, rfl, rfl⟩

/-- C2 counterexample: on the structured-literal path the parsed list is
returned unchecked, so the input below parses (by `literal_eval`) to a
single entry whose condition is empty and whose details list is empty,
violating the claimed invariant. -/
theorem literal_path_entry_invariant_fails :
    parse_treatment_plan ("[\x7b\"condition\": \"\", \"details\": []\x7d]") =
      [PyVal.dict [(PyVal.str (("condition").data), PyVal.str []),
                   (PyVal.str (("details").data), PyVal.list [])]] ∧
    goodEntryB (PyVal.dict [(PyVal.str (("condition").data), PyVal.str []),
                   (PyVal.str (("details").data), PyVal.list [])]) = false :=
  ⟨rfl, rfl⟩

theorem goodEntryB_mkEntry (c : List Char) (ds : List (List Char))
    (hc : c ≠ []) (hd : ds ≠ []) : goodEntryB (mkEntry c ds) = true := by
  cases c with
  | nil => exact absurd rfl hc
  | cons a as =>
    cases ds with
    | nil => exact absurd rfl hd
    | cons d dtl => rfl

theorem mdPairs_good_fueled : ∀ (n : Nat) (parts : List (List Char)),
    parts.length ≤ n → ∀ e ∈ mdPairs parts, goodEntryB e = true := by
  intro n
  induction n with
  | zero =>
    intro parts h e he
    rcases parts with _ | ⟨t, rest⟩
    · simp [mdPairs] at he
    · simp at h
  | succ n ih =>
    intro parts h e he
    rcases parts with _ | ⟨t, _ | ⟨b, rest⟩⟩
    · simp [mdPairs] at he
    · simp [mdPairs] at he
    · have hlen : rest.length ≤ n := by simp at h; omega
      simp only [mdPairs] at he
      split at he
      · exact ih rest hlen e he
      · split at he
        · rcases List.mem_cons.mp he with h1 | h2
          · subst h1
            rename_i hkeep
            apply goodEntryB_mkEntry
            · intro hnil; simp [hnil] at hkeep
            · intro hnil; simp [hnil] at hkeep
          · exact ih rest hlen e h2
        · exact ih rest hlen e he

theorem mdPairs_good (parts : List (List Char)) (e : PyVal)
    (he : e ∈ mdPairs parts) : goodEntryB e = true :=
  mdPairs_good_fueled parts.length parts (Nat.le_refl _) e he

/-- C2 amended: whenever the structured-literal path is not the one that
returns (its decode fails or does not yield a list of dicts), every entry
of the parsed plan has a non-empty condition and at least one detail. -/
theorem markdown_path_entry_invariant (s : String)
    (h : ∀ xs, literal_eval s = Option.some (PyVal.list xs) → xs.all isDictVal = false) :
    ∀ e ∈ parse_treatment_plan s, goodEntryB e = true := by
  intro e he
  unfold parse_treatment_plan at he
  by_cases hg : planGuard s = true
  · rw [if_pos hg] at he
    cases he
  · rw [if_neg hg] at he
    cases hl : literal_eval s with
    | none =>
      rw [hl] at he
      exact mdPairs_good _ _ he
    | some v =>
      rw [hl] at he
      cases v with
      | list xs =>
        have he2 : e ∈ (if xs.all isDictVal = true then xs else mdParse s) := he
        rw [h xs hl] at he2
        simp only [Bool.false_eq_true, if_false] at he2
        exact mdPairs_good _ _ he2
      | str c => exact mdPairs_good _ _ (show e ∈ mdParse s from he)
      | intL n => exact mdPairs_good _ _ (show e ∈ mdParse s from he)
      | boolL b => exact mdPairs_good _ _ (show e ∈ mdParse s from he)
      | noneL => exact mdPairs_good _ _ (show e ∈ mdParse s from he)
      | dict kvs => exact mdPairs_good _ _ (show e ∈ mdParse s from he)

theorem markdown_path_entry_invariant_witness :
    goodEntryB (mkEntry (("A").data) [("d").data]) = true :=
  markdown_path_entry_invariant ("**A:** * d")
    (fun xs hxs => by
      rw [show literal_eval ("**A:** * d") = Option.none from rfl] at hxs
      cases hxs)
    (mkEntry (("A").data) [("d").data])
    (by rw [show parse_treatment_plan ("**A:** * d") =
          [mkEntry (("A").data) [("d").data]] from rfl]
        exact List.mem_singleton_self _)

/-- C6: a heading whose processed title is empty or contains the preamble
phrase is skipped together with its body segment; and the spec scenario
string parses to exactly the one Hypertension entry. -/
theorem markdown_skips_preamble_and_empty_headings :
    (∀ t b rest, (containsSub preamblePhrase (mdTitle t) || (mdTitle t).isEmpty) = true →
        mdPairs (t :: b :: rest) = mdPairs rest) ∧
    parse_treatment_plan
        ("**Hypertension:** * Reduce sodium * Monitor BP **Preliminary Treatment Plan Summary:** * done") =
      [mkEntry (("Hypertension").data) [("Reduce sodium").data, ("Monitor BP").data]] := by
  constructor
  · intro t b rest h
    simp only [mdPairs]
    rw [if_pos h]
  · rfl

theorem markdown_skips_preamble_and_empty_headings_witness :
    mdPairs [[' '], ("x").data] = mdPairs [] :=
  markdown_skips_preamble_and_empty_headings.1 [' '] (("x").data) [] (by rfl)

/-- C3: whatever branch the PDF-generation handler takes (success, invalid
path, bad JSON, not-a-list, missing file, PDF failure), its `finally`
block deletes the file at the supplied location whenever that file exists
and is removable. -/
theorem plan_file_always_deleted (st : TmpStore) (tmpDir p : String) (pdfFails : Bool)
    (hne : p ≠ "") (hex : (st.files p).isSome = true) (hrm : st.removeFails p = false) :
    ((generate_education_material_pdf st tmpDir pdfFails p).2).files p = Option.none := by
  unfold generate_education_material_pdf
  simp [hne, hex, hrm]

theorem plan_file_always_deleted_witness :
    ((generate_education_material_pdf
        ⟨fun q => if q = ("t/x") then Option.some FileData.jsonOther else Option.none,
         fun _ => false⟩ ("t") false ("t/x")).2).files ("t/x") = Option.none :=
  plan_file_always_deleted _ _ _ _ (by decide) (by rfl) (by rfl)

theorem cleanup_papers_mono : ∀ (paths : List String) (fs fs2 : FileSys) (q : String),
    cleanup_papers fs paths = Except.ok fs2 → fs.hasFile q = false → fs2.hasFile q = false := by
  intro paths
  induction paths with
  | nil =>
    intro fs fs2 q h hq
    simp only [cleanup_papers, Except.ok.injEq] at h
    rw [← h]; exact hq
  | cons p rest ih =>
    intro fs fs2 q h hq
    unfold cleanup_papers at h
    cases hstep : cleanupStep fs p with
    | ok fs1 =>
      rw [hstep] at h
      refine ih fs1 fs2 q h ?_
      unfold cleanupStep at hstep
      by_cases hf : fs.hasFile p
      · rw [if_pos hf] at hstep
        unfold osRemove at hstep
        by_cases hr : fs.removeFails p
        · rw [if_pos hr] at hstep; cases hstep
        · rw [if_neg hr] at hstep
          injection hstep with hstep
          rw [← hstep]
          by_cases hqp : q = p
          · simp [hqp]
          · simp [hqp, hq]
      · rw [if_neg hf] at hstep
        injection hstep with hstep
        rw [← hstep]; exact hq
    | error e =>
      rw [hstep] at h
      exact ih fs fs2 q h hq

/-- C10: `cleanup_papers` never raises: the per-path try/except keeps every
internal `OSError` from escaping, so the result is always `ok`; moreover
every given location whose removal does not fail is gone afterwards. -/
theorem cleanup_papers_never_raises (fs : FileSys) (paths : List String) :
    ∃ fs2, cleanup_papers fs paths = Except.ok fs2 ∧
      ∀ p ∈ paths, fs.removeFails p = false → fs2.hasFile p = false := by
  induction paths generalizing fs with
  | nil => exact ⟨fs, rfl, by simp⟩
  | cons p rest ih =>
    by_cases hf : fs.hasFile p
    · by_cases hr : fs.removeFails p
      · obtain ⟨fs2, hok, hall⟩ := ih fs
        have hstep : cleanupStep fs p = Except.error OSErr.oserr := by
          unfold cleanupStep osRemove; rw [if_pos hf, if_pos hr]
        refine ⟨fs2, ?_, ?_⟩
        · unfold cleanup_papers; rw [hstep]; exact hok
        · intro q hq hrm
          rcases List.mem_cons.mp hq with h1 | h2
          · subst h1; rw [hrm] at hr; cases hr
          · exact hall q h2 hrm
      · obtain ⟨fs2, hok, hall⟩ :=
          ih { fs with hasFile := fun q => if q = p then false else fs.hasFile q }
        have hstep : cleanupStep fs p =
            Except.ok { fs with hasFile := fun q => if q = p then false else fs.hasFile q } := by
          unfold cleanupStep osRemove; rw [if_pos hf, if_neg hr]
        refine ⟨fs2, ?_, ?_⟩
        · unfold cleanup_papers; rw [hstep]; exact hok
        · intro q hq hrm
          rcases List.mem_cons.mp hq with h1 | h2
          · subst h1
            exact cleanup_papers_mono rest _ fs2 q hok (by simp)
          · exact hall q h2 hrm
    · obtain ⟨fs2, hok, hall⟩ := ih fs
      have hstep : cleanupStep fs p = Except.ok fs := by
        unfold cleanupStep; rw [if_neg hf]
      refine ⟨fs2, ?_, ?_⟩
      · unfold cleanup_papers; rw [hstep]; exact hok
      · intro q hq hrm
        rcases List.mem_cons.mp hq with h1 | h2
        · subst h1
          exact cleanup_papers_mono rest fs fs2 q hok (by simpa using hf)
        · exact hall q h2 hrm

theorem cleanup_papers_never_raises_witness :
    (cleanup_papers ⟨fun _ => true, fun q => q = ("a")⟩ [("a"), ("b")]).isOk = true := by
  obtain ⟨fs2, hok, _⟩ :=
    cleanup_papers_never_raises ⟨fun _ => true, fun q => q = ("a")⟩ [("a"), ("b")]
  rw [hok]; rfl

theorem searchLoop_attempts (oracle : Nat → HttpResp) (dir : String) :
    ∀ l, (searchLoop oracle dir l).attempts ≤ l.length := by
  intro l
  induction l with
  | nil => simp [searchLoop]
  | cons a more ih =>
    simp only [searchLoop, List.length_cons]
    cases oracle a with
    | tooMany => simpa using Nat.succ_le_succ ih
    | failure =>
      by_cases h3 : a < 3
      · rw [if_pos h3]; simpa using Nat.succ_le_succ ih
      · rw [if_neg h3]; simpa using Nat.succ_le_succ ih
    | ok data => simp

theorem searchLoop_allfail (oracle : Nat → HttpResp) (dir : String) :
    ∀ l, (∀ i ∈ l, isOkResp (oracle i) = false) →
      (searchLoop oracle dir l).files = [] := by
  intro l
  induction l with
  | nil => intro _; simp [searchLoop]
  | cons a more ih =>
    intro h
    simp only [searchLoop]
    cases ho : oracle a with
    | tooMany => exact ih (fun i hi => h i (List.mem_cons_of_mem a hi))
    | failure =>
      by_cases h3 : a < 3
      · rw [if_pos h3]; exact ih (fun i hi => h i (List.mem_cons_of_mem a hi))
      · rw [if_neg h3]; exact ih (fun i hi => h i (List.mem_cons_of_mem a hi))
    | ok data =>
      have := h a (List.mem_cons_self a more)
      rw [ho] at this
      cases this

theorem searchLoop_all429 (oracle : Nat → HttpResp) (dir : String) :
    ∀ l, (∀ i ∈ l, oracle i = HttpResp.tooMany) →
      searchLoop oracle dir l = ⟨[], l.map (fun i => 2 ^ i), l.length⟩ := by
  intro l
  induction l with
  | nil => intro _; rfl
  | cons a more ih =>
    intro h
    simp only [searchLoop, h a (List.mem_cons_self a more)]
    rw [ih (fun i hi => h i (List.mem_cons_of_mem a hi))]
    simp

theorem searchLoop_step_nonok (oracle : Nat → HttpResp) (dir : String) (a : Nat)
    (rest : List Nat) (ha : a < 3) (hok : isOkResp (oracle a) = false) :
    searchLoop oracle dir (a :: rest) =
      ⟨(searchLoop oracle dir rest).files, 2 ^ a :: (searchLoop oracle dir rest).sleeps,
       (searchLoop oracle dir rest).attempts + 1⟩ := by
  cases ho : oracle a with
  | tooMany => simp [searchLoop, ho]
  | failure => simp [searchLoop, ho, ha]
  | ok data => rw [ho] at hok; cases hok

theorem perform_search_nonok_sleeps (oracle : Nat → HttpResp) (dir : String)
    (h : ∀ i, i < 4 → isOkResp (oracle i) = false) :
    perform_search oracle dir =
      ⟨[], [1, 2, 4] ++ (match oracle 3 with | HttpResp.tooMany => [8] | _ => []), 4⟩ := by
  unfold perform_search
  rw [searchLoop_step_nonok oracle dir 0 _ (by omega) (h 0 (by omega)),
    searchLoop_step_nonok oracle dir 1 _ (by omega) (h 1 (by omega)),
    searchLoop_step_nonok oracle dir 2 _ (by omega) (h 2 (by omega))]
  cases ho : oracle 3 with
  | tooMany => simp [searchLoop, ho]
  | failure => simp [searchLoop, ho]
  | ok data =>
    have := h 3 (by omega)
    rw [ho] at this
    cases this

/-- C4: `_perform_search` makes at most 4 request attempts; if no attempt
returns 200 it returns an empty list (never an error); if every attempt is
a 429 it performs the backoff sleeps 1, 2, 4, 8 seconds; if every attempt
is another transport/HTTP failure it performs the backoff sleeps 1, 2, 4
(no sleep after the final attempt, which has no next attempt); in any run
where no attempt succeeds — any mix of 429s and other failures — it sleeps
`2 ^ attempt` after each of the first three attempts, plus 8 after the
fourth exactly when that one is a 429; and in the two scenarios (429 three
times, or another failure three times, then 200 with one abstract-bearing
paper) it returns exactly one saved location after backoff sleeps of 1, 2
and 4 seconds. -/
theorem perform_search_retry_backoff (oracle : Nat → HttpResp) (dir : String) :
    (perform_search oracle dir).attempts ≤ 4 ∧
    ((∀ i, i < 4 → isOkResp (oracle i) = false) → (perform_search oracle dir).files = []) ∧
    ((∀ i, i < 4 → oracle i = HttpResp.tooMany) →
      perform_search oracle dir = ⟨[], [1, 2, 4, 8], 4⟩) ∧
    ((∀ i, i < 4 → oracle i = HttpResp.failure) →
      perform_search oracle dir = ⟨[], [1, 2, 4], 4⟩) ∧
    ((∀ i, i < 4 → isOkResp (oracle i) = false) →
      perform_search oracle dir =
        ⟨[], [1, 2, 4] ++ (match oracle 3 with | HttpResp.tooMany => [8] | _ => []), 4⟩) ∧
    perform_search oracleBackoff ("R") = ⟨[("R/Care_Study.txt")], [1, 2, 4], 4⟩ ∧
    perform_search
        (fun i => if i < 3 then HttpResp.failure
          else HttpResp.ok [Option.some ⟨Option.some "Care Study", Option.some "An abstract"⟩])
        ("R") = ⟨[("R/Care_Study.txt")], [1, 2, 4], 4⟩ := by
  refine ⟨?_, ?_, ?_, ?_, ?_, rfl, rfl⟩
  · simpa using searchLoop_attempts oracle dir [0, 1, 2, 3]
  · intro h
    refine searchLoop_allfail oracle dir [0, 1, 2, 3] ?_
    intro i hi
    refine h i ?_
    simp only [List.mem_cons, List.not_mem_nil, or_false] at hi
    rcases hi with h1 | h1 | h1 | h1 <;> omega
  · intro h
    have hmt : ∀ i ∈ [0, 1, 2, 3], oracle i = HttpResp.tooMany := by
      intro i hi
      refine h i ?_
      simp only [List.mem_cons, List.not_mem_nil, or_false] at hi
      rcases hi with h1 | h1 | h1 | h1 <;> omega
    have := searchLoop_all429 oracle dir [0, 1, 2, 3] hmt
    simpa using this
  · intro h
    have hgen := perform_search_nonok_sleeps oracle dir
      (fun i hi => by rw [h i hi]; rfl)
    rw [h 3 (by omega)] at hgen
    simpa using hgen
  · exact perform_search_nonok_sleeps oracle dir

theorem perform_search_retry_backoff_witness :
    (perform_search (fun _ => HttpResp.failure) ("R")).files = [] ∧
    perform_search (fun _ => HttpResp.tooMany) ("R") = ⟨[], [1, 2, 4, 8], 4⟩ ∧
    perform_search (fun _ => HttpResp.failure) ("R") = ⟨[], [1, 2, 4], 4⟩ ∧
    perform_search (fun i => if i = 1 then HttpResp.tooMany else HttpResp.failure) ("R") =
      ⟨[], [1, 2, 4], 4⟩ := by
  refine ⟨(perform_search_retry_backoff (fun _ => HttpResp.failure) ("R")).2.1 (fun _ _ => rfl),
    (perform_search_retry_backoff (fun _ => HttpResp.tooMany) ("R")).2.2.1 (fun _ _ => rfl),
    (perform_search_retry_backoff (fun _ => HttpResp.failure) ("R")).2.2.2.1 (fun _ _ => rfl),
    ?_⟩
  have h := (perform_search_retry_backoff
    (fun i => if i = 1 then HttpResp.tooMany else HttpResp.failure) ("R")).2.2.2.2.1
    (fun i _ => by by_cases h1 : i = 1 <;> simp [h1, isOkResp])
  simpa using h

theorem hasPrefixCL_append : ∀ (a b : List Char), hasPrefixCL a (a ++ b) = true := by
  intro a b
  induction a with
  | nil => rfl
  | cons c cs ih => simp [hasPrefixCL, ih]

theorem planPath_data (tmpDir patientId : String) (ts : Nat) :
    (planPath tmpDir patientId ts).data =
      tmpDir.data ++ '/' :: (patientId.data ++ ("_").data ++ (toString ts).data ++
        ("_plan.json").data) := by
  simp only [planPath, String.data_append, List.append_assoc]
  rfl

/-- C8: storing a non-empty plan yields the `patientId_timestamp_plan.json`
location under the temporary root holding the serialized plan; consuming
that location returns the stored plan; a second consumption of the same
location yields the distinct not-found outcome (HTTP 404); an empty plan
stores nothing and yields no location.  (`jsonSafeList` records the
JSON-serializability under which the modelled dump/load pair is the
identity.) -/
theorem store_retrieve_roundtrip (st : TmpStore) (tmpDir patientId : String) (ts : Nat)
    (plan : List PyVal) (hne : plan ≠ []) (hsafe : jsonSafeList plan = true)
    (hrm : st.removeFails (planPath tmpDir patientId ts) = false) :
    (storePlan st tmpDir patientId ts plan).1 = Option.some (planPath tmpDir patientId ts) ∧
    (storePlan st tmpDir patientId ts plan).2.files (planPath tmpDir patientId ts) =
      Option.some (FileData.jsonList plan) ∧
    (generate_education_material_pdf (storePlan st tmpDir patientId ts plan).2 tmpDir false
        (planPath tmpDir patientId ts)).1 = PdfOutcome.pdf plan ∧
    (generate_education_material_pdf
        (generate_education_material_pdf (storePlan st tmpDir patientId ts plan).2 tmpDir false
            (planPath tmpDir patientId ts)).2 tmpDir false (planPath tmpDir patientId ts)).1 =
      PdfOutcome.notFound ∧
    statusOf PdfOutcome.notFound = 404 ∧
    storePlan st tmpDir patientId ts [] = (Option.none, st) := by
  have hp : pathCheck tmpDir (planPath tmpDir patientId ts) = true := by
    unfold pathCheck startswithCL
    rw [planPath_data]
    exact hasPrefixCL_append _ _
  have hpne : planPath tmpDir patientId ts ≠ "" := by
    intro h
    have hd : (planPath tmpDir patientId ts).data = [] := by rw [h]
    rw [planPath_data] at hd
    rcases List.append_eq_nil.mp hd with ⟨_, h2⟩
    cases h2
  have hplanEmpty : plan.isEmpty = false := by
    cases plan with
    | nil => exact absurd rfl hne
    | cons a as => rfl
  have hstore : storePlan st tmpDir patientId ts plan =
      (Option.some (planPath tmpDir patientId ts),
       { st with
          files := fun q => if q = planPath tmpDir patientId ts then
            Option.some (FileData.jsonList plan) else st.files q }) := by
    unfold storePlan
    rw [hplanEmpty]
    simp
  refine ⟨by rw [hstore], ?_, ?_, ?_, rfl, by unfold storePlan; simp⟩
  · rw [hstore]; simp
  · rw [hstore]
    unfold generate_education_material_pdf
    rw [hp]
    simp
  · rw [hstore]
    unfold generate_education_material_pdf
    rw [hp]
    simp [hpne, hrm]

theorem store_retrieve_roundtrip_witness :
    (storePlan ⟨fun _ => Option.none, fun _ => false⟩ ("/t") ("p1") 7
        [mkEntry (("A").data) [("d").data]]).1 = Option.some ("/t/p1_7_plan.json") ∧
    (generate_education_material_pdf
        (storePlan ⟨fun _ => Option.none, fun _ => false⟩ ("/t") ("p1") 7
          [mkEntry (("A").data) [("d").data]]).2 ("/t") false ("/t/p1_7_plan.json")).1 =
      PdfOutcome.pdf [mkEntry (("A").data) [("d").data]] := by
  have h := store_retrieve_roundtrip ⟨fun _ => Option.none, fun _ => false⟩ ("/t") ("p1") 7
    [mkEntry (("A").data) [("d").data]] (by simp) (by rfl) (by rfl)
  have hpath : planPath ("/t") ("p1") 7 = ("/t/p1_7_plan.json") := by rfl
  refine ⟨?_, ?_⟩
  · rw [← hpath]; exact h.1
  · rw [← hpath]; exact h.2.2.1

theorem dropWhile_append_of_ne_nil (p : Char → Bool) :
    ∀ (l r : List Char), l.dropWhile p ≠ [] → (l ++ r).dropWhile p = l.dropWhile p ++ r := by
  intro l r
  induction l with
  | nil => intro h; exact absurd rfl h
  | cons c cs ih =>
    intro h
    by_cases hc : p c = true
    · rw [List.dropWhile_cons, if_pos hc] at h
      rw [List.cons_append, List.dropWhile_cons, if_pos hc, List.dropWhile_cons, if_pos hc]
      exact ih h
    · rw [List.cons_append, List.dropWhile_cons, if_neg hc, List.dropWhile_cons, if_neg hc]
      rfl

theorem dropWhile_append_of_nil (p : Char → Bool) :
    ∀ (l r : List Char), l.dropWhile p = [] → (l ++ r).dropWhile p = r.dropWhile p := by
  intro l r
  induction l with
  | nil => intro _; rfl
  | cons c cs ih =>
    intro h
    rw [List.dropWhile_cons] at h
    by_cases hc : p c = true
    · rw [if_pos hc] at h
      rw [List.cons_append, List.dropWhile_cons, if_pos hc]
      exact ih h
    · rw [if_neg hc] at h
      cases h

theorem pyStrip_noEdge (l : List Char) (h : noEdgeSpace l = true) : pyStrip l = l := by
  cases l with
  | nil => rfl
  | cons c cs =>
    rw [noEdgeSpace, Bool.and_eq_true] at h
    obtain ⟨hh, hl⟩ := h
    simp only [List.head?_cons] at hh
    have hc : isPySpace c = false := by
      cases hx : isPySpace c
      · rfl
      · rw [hx] at hh; cases hh
    cases hgl : (c :: cs).getLast? with
    | none =>
      rw [List.getLast?_eq_none_iff] at hgl
      cases hgl
    | some ch =>
      rw [hgl] at hl
      have hch : isPySpace ch = false := by simpa using hl
      unfold pyStrip
      rw [List.dropWhile_cons, if_neg (by rw [hc]; exact Bool.false_ne_true)]
      cases hrev : (c :: cs).reverse with
      | nil => exact absurd (List.reverse_eq_nil_iff.mp hrev) (List.cons_ne_nil c cs)
      | cons r rs =>
        have hhr : (c :: cs).reverse.head? = Option.some r := by rw [hrev]; rfl
        rw [List.head?_reverse, hgl] at hhr
        have hrch : r = ch := by
          injection hhr with hv
          exact hv.symm
        rw [List.dropWhile_cons, if_neg (by rw [hrch, hch]; exact Bool.false_ne_true)]
        rw [← hrev, List.reverse_reverse]

theorem pyStrip_cons_space (c : Char) (l : List Char) (h : isPySpace c = true) :
    pyStrip (c :: l) = pyStrip l := by
  unfold pyStrip
  rw [List.dropWhile_cons, if_pos h]

theorem pyStrip_append_space (l : List Char) (c : Char) (h : isPySpace c = true) :
    pyStrip (l ++ [c]) = pyStrip l := by
  unfold pyStrip
  by_cases hF : l.dropWhile isPySpace = []
  · rw [dropWhile_append_of_nil _ _ _ hF, hF]
    rw [List.dropWhile_cons, if_pos h]
    rfl
  · rw [dropWhile_append_of_ne_nil _ _ _ hF]
    rw [List.reverse_append]
    simp only [List.reverse_cons, List.reverse_nil, List.nil_append, List.singleton_append]
    rw [List.dropWhile_cons, if_pos h]

theorem splitPredAux_consume (p : Char → Bool) (rest : List Char) :
    ∀ (l acc : List Char), (∀ c ∈ l, p c = false) →
      splitPredAux p (l ++ rest) acc = splitPredAux p rest (l.reverse ++ acc) := by
  intro l
  induction l with
  | nil => intro acc _; simp
  | cons c cs ih =>
    intro acc h
    rw [List.cons_append]
    conv_lhs => unfold splitPredAux
    rw [if_neg (by rw [h c (List.mem_cons_self c cs)]; exact Bool.false_ne_true)]
    rw [ih (c :: acc) (fun x hx => h x (List.mem_cons_of_mem c hx))]
    simp

theorem splitPredAux_emit (p : Char → Bool) (c : Char) (rest acc : List Char)
    (h : p c = true) :
    splitPredAux p (c :: rest) acc = acc.reverse :: splitPredAux p rest [] := by
  conv_lhs => unfold splitPredAux
  rw [if_pos h]

theorem splitStar2Aux_nil (acc : List Char) : splitStar2Aux [] acc = [acc.reverse] := rfl

theorem splitStar2Aux_one (c : Char) (acc : List Char) :
    splitStar2Aux [c] acc = [(c :: acc).reverse] := rfl

theorem splitStar2Aux_cons2 (c c2 : Char) (cs acc : List Char) :
    splitStar2Aux (c :: c2 :: cs) acc =
      if c = '*' && c2 = '*' then acc.reverse :: splitStar2Aux cs []
      else splitStar2Aux (c2 :: cs) (c :: acc) := rfl

theorem splitStar2Aux_consume (rest : List Char) :
    ∀ (c acc : List Char), c.contains '*' = false →
      splitStar2Aux (c ++ rest) acc = splitStar2Aux rest (c.reverse ++ acc) := by
  intro c
  induction c with
  | nil => intro acc _; simp
  | cons x xs ih =>
    intro acc h
    have hx : x ≠ '*' := by
      intro he
      subst he
      simp [List.contains_cons] at h
    have hxs : xs.contains '*' = false := by
      cases hc : List.contains xs '*'
      · rfl
      · rw [List.contains_cons, hc] at h
        simp at h
    rw [List.cons_append]
    cases hshape : xs ++ rest with
    | nil =>
      rcases List.append_eq_nil.mp hshape with ⟨h1, h2⟩
      subst h1; subst h2
      simp [splitStar2Aux]
    | cons y ys =>
      rw [splitStar2Aux_cons2, if_neg (by simp [hx]), ← hshape, ih (x :: acc) hxs]
      simp

theorem splitStar2Aux_noSS : ∀ (n : Nat) (l acc : List Char), l.length ≤ n →
    noStarStar l = true → splitStar2Aux l acc = [acc.reverse ++ l] := by
  intro n
  induction n with
  | zero =>
    intro l acc hlen _
    rcases l with _ | ⟨c, cs⟩
    · simp [splitStar2Aux]
    · simp at hlen
  | succ n ih =>
    intro l acc hlen hnss
    rcases l with _ | ⟨c, _ | ⟨c2, cs⟩⟩
    · simp [splitStar2Aux]
    · simp [splitStar2Aux]
    · rw [noStarStar, Bool.and_eq_true] at hnss
      obtain ⟨h1, h2⟩ := hnss
      rw [Bool.not_eq_eq_eq_not, Bool.not_true] at h1
      rw [splitStar2Aux_cons2, if_neg (by rw [h1]; exact Bool.false_ne_true)]
      rw [ih (c2 :: cs) (c :: acc) (by simp at hlen ⊢; omega) h2]
      simp

theorem splitStar2Aux_append (b : List Char) : ∀ (n : Nat) (a acc : List Char), a.length ≤ n →
    a.getLast? ≠ Option.some '*' →
    splitStar2Aux (a ++ '*' :: '*' :: b) acc = splitStar2Aux a acc ++ splitStar2Aux b [] := by
  intro n
  induction n with
  | zero =>
    intro a acc hlen _
    rcases a with _ | ⟨c, cs⟩
    · rw [List.nil_append, splitStar2Aux_cons2, if_pos (by simp), splitStar2Aux_nil]
      rfl
    · simp at hlen
  | succ n ih =>
    intro a acc hlen hlast
    rcases a with _ | ⟨c, _ | ⟨c2, cs⟩⟩
    · rw [List.nil_append, splitStar2Aux_cons2, if_pos (by simp), splitStar2Aux_nil]
      rfl
    · have hc : c ≠ '*' := by
        intro he
        subst he
        exact hlast rfl
      rw [List.singleton_append, splitStar2Aux_cons2, if_neg (by simp [hc]),
        splitStar2Aux_cons2, if_pos (by simp), splitStar2Aux_one]
      rfl
    · rw [List.cons_append, List.cons_append]
      have hlast2 : (c2 :: cs).getLast? ≠ Option.some '*' := by
        rwa [List.getLast?_cons_cons] at hlast
      rw [splitStar2Aux_cons2, splitStar2Aux_cons2]
      by_cases hstar : (c = '*' && c2 = '*') = true
      · rcases cs with _ | ⟨c3, cs3⟩
        · have hc2 : c2 = '*' := by
            rw [Bool.and_eq_true] at hstar
            simpa using hstar.2
          exact absurd (by rw [hc2]; rfl) hlast2
        · have hlast3 : (c3 :: cs3).getLast? ≠ Option.some '*' := by
            rwa [List.getLast?_cons_cons] at hlast2
          rw [if_pos hstar, if_pos hstar]
          rw [ih (c3 :: cs3) [] (by simp at hlen ⊢; omega) hlast3]
          rfl
      · rw [if_neg hstar, if_neg hstar]
        have hih := ih (c2 :: cs) (c :: acc) (by simp at hlen ⊢; omega) hlast2
        rw [List.cons_append] at hih
        exact hih

theorem splitStar2Aux_ne_nil : ∀ (l acc : List Char), splitStar2Aux l acc ≠ [] := by
  intro l
  induction l with
  | nil => intro acc; simp [splitStar2Aux]
  | cons c cs ih =>
    intro acc
    rcases cs with _ | ⟨c2, cs2⟩
    · simp [splitStar2Aux]
    · unfold splitStar2Aux
      by_cases h : (c = '*' && c2 = '*') = true
      · rw [if_pos h]; simp
      · rw [if_neg h]
        exact ih (c :: acc)

theorem hasPrefixCL_mono : ∀ (pat l r : List Char),
    hasPrefixCL pat l = true → hasPrefixCL pat (l ++ r) = true := by
  intro pat
  induction pat with
  | nil => intro l r _; rfl
  | cons p ps ih =>
    intro l r h
    cases l with
    | nil => cases h
    | cons c cs =>
      simp only [hasPrefixCL, Bool.and_eq_true] at h ⊢
      exact ⟨h.1, ih cs r h.2⟩

theorem containsSub_append_right (pat : List Char) :
    ∀ (l r : List Char), containsSub pat l = true → containsSub pat (l ++ r) = true := by
  intro l
  induction l with
  | nil =>
    intro r h
    unfold containsSub at h
    cases pat with
    | nil =>
      cases r with
      | nil => exact h
      | cons c cs => rfl
    | cons p ps => cases h
  | cons c cs ih =>
    intro r h
    rw [show containsSub pat (c :: cs) =
      (hasPrefixCL pat (c :: cs) || containsSub pat cs) from rfl, Bool.or_eq_true] at h
    rw [List.cons_append,
      show containsSub pat (c :: (cs ++ r)) =
        (hasPrefixCL pat (c :: (cs ++ r)) || containsSub pat (cs ++ r)) from rfl]
    rcases h with h1 | h2
    · have hm := hasPrefixCL_mono pat (c :: cs) r h1
      rw [List.cons_append] at hm
      rw [hm]
      rfl
    · rw [ih r h2]
      simp

theorem planGuard_of_append (u : String) (x : List Char)
    (h : planGuard ⟨u.data ++ x⟩ = false) : planGuard u = false := by
  unfold planGuard at h ⊢
  cases h1 : containsSub noPlanMarker u.data
  · cases h2 : containsSub failedMarker u.data
    · rfl
    · rw [containsSub_append_right failedMarker u.data x h2] at h
      simp at h
  · rw [containsSub_append_right noPlanMarker u.data x h1] at h
    simp at h

theorem parse_eq_mdParse (s : String) (hg : planGuard s = false)
    (hl : ∀ xs, literal_eval s = Option.some (PyVal.list xs) → xs.all isDictVal = false) :
    parse_treatment_plan s = mdParse s := by
  unfold parse_treatment_plan
  rw [if_neg (by rw [hg]; exact Bool.false_ne_true)]
  cases hle : literal_eval s with
  | none => rfl
  | some v =>
    cases v with
    | list xs =>
      show (if xs.all isDictVal = true then xs else mdParse s) = mdParse s
      rw [hl xs hle]
      simp
    | str c => rfl
    | intL n => rfl
    | boolL b => rfl
    | noneL => rfl
    | dict kvs => rfl

theorem mdPairs_append_single : ∀ (n : Nat) (l : List (List Char)) (x : List Char),
    l.length ≤ n → l.length % 2 = 0 → mdPairs (l ++ [x]) = mdPairs l := by
  intro n
  induction n with
  | zero =>
    intro l x hlen _
    rcases l with _ | ⟨t, rest⟩
    · simp [mdPairs]
    · simp at hlen
  | succ n ih =>
    intro l x hlen hpar
    rcases l with _ | ⟨t, _ | ⟨b, rest⟩⟩
    · simp [mdPairs]
    · simp at hpar
    · rw [List.cons_append, List.cons_append]
      have hr : mdPairs (rest ++ [x]) = mdPairs rest :=
        ih rest x (by simp at hlen ⊢; omega) (by simp at hpar ⊢; omega)
      simp only [mdPairs]
      rw [hr]

/-- C5: `parse_treatment_plan` is a total function, and on the markdown
fallback path a trailing segment beyond the last complete heading/body
pair (produced by an odd number of `**` delimiters) is ignored: appending
one more delimiter and any delimiter-free segment to a text whose split
already has an unpaired part leaves the parse unchanged. -/
theorem parse_ignores_trailing_segment (u t : String)
    (hodd : (splitStar2 u.data).length % 2 = 1)
    (hnss : noStarStar t.data = true)
    (hlast : u.data.getLast? ≠ Option.some '*')
    (hguard : planGuard (u ++ "**" ++ t) = false)
    (hlit1 : ∀ xs, literal_eval (u ++ "**" ++ t) = Option.some (PyVal.list xs) →
      xs.all isDictVal = false)
    (hlit2 : ∀ xs, literal_eval u = Option.some (PyVal.list xs) → xs.all isDictVal = false) :
    parse_treatment_plan (u ++ "**" ++ t) = parse_treatment_plan u := by
  have hdata : (u ++ "**" ++ t).data = u.data ++ '*' :: '*' :: t.data := by
    rw [String.data_append, String.data_append]
    rw [show ("**").data = ['*', '*'] from rfl]
    simp
  have hgu : planGuard u = false := by
    apply planGuard_of_append u ('*' :: '*' :: t.data)
    have hs : (⟨u.data ++ '*' :: '*' :: t.data⟩ : String) = u ++ "**" ++ t := by
      apply String.ext
      rw [hdata]
    rw [hs]
    exact hguard
  rw [parse_eq_mdParse _ hguard hlit1, parse_eq_mdParse _ hgu hlit2]
  unfold mdParse
  rw [hdata]
  unfold splitStar2
  rw [splitStar2Aux_append (t.data) (u.data.length) u.data [] (Nat.le_refl _) hlast]
  rw [splitStar2Aux_noSS (t.data.length) t.data [] (Nat.le_refl _) hnss]
  have hne := splitStar2Aux_ne_nil u.data []
  rcases hsp : splitStar2Aux u.data [] with _ | ⟨p0, ps⟩
  · exact absurd hsp hne
  · unfold splitStar2 at hodd
    rw [hsp] at hodd
    simp only [List.reverse_nil, List.nil_append, List.cons_append, List.tail_cons]
    apply mdPairs_append_single ps.length ps t.data (Nat.le_refl _)
    simp only [List.length_cons] at hodd
    omega

theorem parse_ignores_trailing_segment_witness :
    parse_treatment_plan ("**A:** * x" ++ "**" ++ "junk") =
      parse_treatment_plan ("**A:** * x") :=
  parse_ignores_trailing_segment ("**A:** * x") ("junk") (by decide) (by decide) (by decide)
    (by rfl)
    (fun xs hxs => by
      rw [show literal_eval ("**A:** * x" ++ "**" ++ "junk") = Option.none from rfl] at hxs
      cases hxs)
    (fun xs hxs => by
      rw [show literal_eval ("**A:** * x") = Option.none from rfl] at hxs
      cases hxs)

theorem afterFirst_cons (pat : List Char) (c : Char) (cs : List Char) :
    afterFirst pat (c :: cs) =
      if hasPrefixCL pat (c :: cs) = true then Option.some ((c :: cs).drop pat.length)
      else afterFirst pat cs := rfl

theorem afterFirst_prefix (pat rest : List Char) (h : pat ≠ []) :
    afterFirst pat (pat ++ rest) = Option.some rest := by
  rcases hp : pat with _ | ⟨p, ps⟩
  · exact absurd hp h
  · rw [List.cons_append, afterFirst_cons]
    have hpre : hasPrefixCL (p :: ps) (p :: (ps ++ rest)) = true := by
      have := hasPrefixCL_append (p :: ps) rest
      rwa [List.cons_append] at this
    rw [if_pos hpre]
    rw [show p :: (ps ++ rest) = (p :: ps) ++ rest from rfl]
    rw [List.drop_left]

theorem afterFirst_eq_none (pat : List Char) (hpat : pat ≠ []) :
    ∀ l, containsSub pat l = false → afterFirst pat l = Option.none := by
  intro l
  induction l with
  | nil =>
    intro _
    rcases hp : pat with _ | ⟨p, ps⟩
    · exact absurd hp hpat
    · rfl
  | cons c cs ih =>
    intro h
    rw [show containsSub pat (c :: cs) =
      (hasPrefixCL pat (c :: cs) || containsSub pat cs) from rfl] at h
    rw [Bool.or_eq_false_iff] at h
    rw [afterFirst_cons, if_neg (by rw [h.1]; exact Bool.false_ne_true)]
    exact ih h.2

theorem isTermAt_false_head (c : Char) (rest : List Char) (h : c ≠ '\n') :
    isTermAt (c :: rest) = false := by
  rcases rest with _ | ⟨c2, _ | ⟨c3, _ | ⟨c4, r⟩⟩⟩ <;> simp [isTermAt, h]

theorem isTermAt_false_two (c1 c2 : Char) (rest : List Char) (h : c2 ≠ '\n') :
    isTermAt (c1 :: c2 :: rest) = false := by
  rcases rest with _ | ⟨c3, _ | ⟨c4, r⟩⟩ <;> simp [isTermAt, h]

theorem isTermAt_three_nl (c3 : Char) (x : List Char) (h : c3.isUpper = false) :
    isTermAt ('\n' :: '\n' :: c3 :: x) = false := by
  rcases x with _ | ⟨c4, r⟩ <;> simp [isTermAt, h]

theorem takeUntilTerm_cons (c : Char) (cs : List Char) :
    takeUntilTerm (c :: cs) =
      if isTermAt (c :: cs) = true then [] else c :: takeUntilTerm cs := rfl

theorem takeUntilTerm_line : ∀ (l rest : List Char), '\n' ∉ l →
    takeUntilTerm (l ++ rest) = l ++ takeUntilTerm rest := by
  intro l
  induction l with
  | nil => intro rest _; simp
  | cons c cs ih =>
    intro rest h
    have hc : c ≠ '\n' := fun he => h (by rw [he]; exact List.mem_cons_self _ _)
    rw [List.cons_append, takeUntilTerm_cons,
      if_neg (by rw [isTermAt_false_head c _ hc]; exact Bool.false_ne_true)]
    rw [ih rest (fun hm => h (List.mem_cons_of_mem c hm))]
    rfl

theorem takeUntilTerm_lines : ∀ (lines : List (List Char)),
    (∀ l ∈ lines, l ≠ [] ∧ '\n' ∉ l) →
    ∀ (tl : List Char), isTermAt ('\n' :: '\n' :: tl) = true →
    takeUntilTerm ('\n' :: joinNL lines ++ '\n' :: '\n' :: tl) = '\n' :: joinNL lines := by
  intro lines
  induction lines with
  | nil =>
    intro _ tl hterm
    show takeUntilTerm ('\n' :: '\n' :: '\n' :: tl) = ['\n']
    rw [takeUntilTerm_cons, if_neg (by
      rw [isTermAt_three_nl '\n' tl (by decide)]; exact Bool.false_ne_true)]
    rw [takeUntilTerm_cons, if_pos hterm]
  | cons l ls ih =>
    intro h tl hterm
    obtain ⟨hlne, hlnl⟩ := h l (List.mem_cons_self l ls)
    rcases ls with _ | ⟨l2, rest⟩
    · show takeUntilTerm ('\n' :: (l ++ '\n' :: '\n' :: tl)) = '\n' :: l
      have hhd : ∀ c, l.head? = Option.some c → c ≠ '\n' := by
        intro c hc he
        subst he
        exact hlnl (List.mem_of_mem_head? hc)
      rcases hl : l with _ | ⟨c0, crest⟩
      · exact absurd hl hlne
      · rw [takeUntilTerm_cons, if_neg (by
          rw [List.cons_append, isTermAt_false_two '\n' c0 _ (hhd c0 (by rw [hl]; rfl))]
          exact Bool.false_ne_true)]
        rw [← hl]
        rw [takeUntilTerm_line l ('\n' :: '\n' :: tl) hlnl]
        rw [takeUntilTerm_cons, if_pos hterm]
        simp
    · show takeUntilTerm ('\n' :: ((l ++ '\n' :: joinNL (l2 :: rest)) ++ '\n' :: '\n' :: tl)) =
        '\n' :: (l ++ '\n' :: joinNL (l2 :: rest))
      have hhd : ∀ c, l.head? = Option.some c → c ≠ '\n' := by
        intro c hc he
        subst he
        exact hlnl (List.mem_of_mem_head? hc)
      rcases hl : l with _ | ⟨c0, crest⟩
      · exact absurd hl hlne
      · rw [takeUntilTerm_cons, if_neg (by
          rw [List.append_assoc, List.cons_append,
            isTermAt_false_two '\n' c0 _ (hhd c0 (by rw [hl]; rfl))]
          exact Bool.false_ne_true)]
        rw [← hl, List.append_assoc]
        rw [takeUntilTerm_line l _ hlnl]
        rw [ih (fun x hx => h x (List.mem_cons_of_mem l hx)) tl hterm]

theorem splitPredAux_joinNL (p : Char → Bool) (hnl : p '\n' = true) :
    ∀ (lines : List (List Char)), lines ≠ [] →
      (∀ l ∈ lines, ∀ c ∈ l, p c = false) →
      splitPredAux p (joinNL lines) [] = lines := by
  intro lines
  induction lines with
  | nil => intro h _; exact absurd rfl h
  | cons l ls ih =>
    intro _ h
    rcases ls with _ | ⟨l2, rest⟩
    · show splitPredAux p l [] = [l]
      have := splitPredAux_consume p [] l [] (h l (List.mem_cons_self l _))
      rw [List.append_nil] at this
      rw [this]
      simp [splitPredAux]
    · show splitPredAux p (l ++ '\n' :: joinNL (l2 :: rest)) [] = l :: l2 :: rest
      rw [splitPredAux_consume p _ l [] (h l (List.mem_cons_self l _))]
      rw [splitPredAux_emit p '\n' _ _ hnl]
      rw [ih (by simp) (fun x hx => h x (List.mem_cons_of_mem l hx))]
      simp

theorem extract_conditions_eq_of_afterFirst (s : String) (tail0 : List Char)
    (h : afterFirst (("Conditions:").data) s.data = Option.some tail0) :
    extract_conditions s =
      (((splitPred (fun c => c = '\n' || c = ';') (takeUntilTerm tail0)).filter
        (fun it => containsSub (("(disorder)").data) it)).map
        cleanCondition).filter (fun cl => cl ≠ []) := by
  unfold extract_conditions
  rw [h]

/-- C7: a patient text with no `Conditions:` label yields no conditions;
for a well-formed block of non-empty, separator-free lines closed by a
`Medications:` heading, `extract_conditions` returns exactly the
disorder-marked lines, in source order, cleaned of the marker, dash/bullet
decoration and surrounding whitespace; and the spec scenario input yields
exactly its two conditions. -/
theorem extract_conditions_spec :
    (∀ s : String, containsSub (("Conditions:").data) s.data = false →
      extract_conditions s = []) ∧
    (∀ lines : List (List Char), (∀ l ∈ lines, l ≠ [] ∧ '\n' ∉ l ∧ ';' ∉ l) →
      extract_conditions ⟨("Conditions:").data ++ '\n' :: joinNL lines ++
          '\n' :: '\n' :: ("Medications:").data⟩ =
        (((lines.filter (fun l => containsSub (("(disorder)").data) l)).map
          cleanCondition).filter (fun cl => cl ≠ []))) ∧
    extract_conditions
        ("Conditions:\nType 2 diabetes (disorder)\n- Hypertension (disorder)\n\nMedications:") =
      [("Type 2 diabetes").data, ("Hypertension").data] := by
  refine ⟨?_, ?_, rfl⟩
  · intro s h
    unfold extract_conditions
    rw [afterFirst_eq_none (("Conditions:").data) (by decide) s.data h]
  · intro lines h
    have hterm : isTermAt ('\n' :: '\n' :: ("Medications:").data) = true := by decide
    have haf : afterFirst (("Conditions:").data)
        (⟨("Conditions:").data ++ '\n' :: joinNL lines ++
          '\n' :: '\n' :: ("Medications:").data⟩ : String).data =
        Option.some ('\n' :: joinNL lines ++ '\n' :: '\n' :: ("Medications:").data) :=
      afterFirst_prefix _ _ (by decide)
    rw [extract_conditions_eq_of_afterFirst _ _ haf]
    rw [takeUntilTerm_lines lines (fun l hl => ⟨(h l hl).1, (h l hl).2.1⟩) _ hterm]
    unfold splitPred
    rw [splitPredAux_emit _ '\n' _ _ (by decide)]
    rcases lines with _ | ⟨l, ls⟩
    · rfl
    · rw [splitPredAux_joinNL _ (by decide) (l :: ls) (by simp)
        (fun x hx c hc => by
          have h1 := (h x hx).2.1
          have h2 := (h x hx).2.2
          have hne1 : c ≠ '\n' := fun he => h1 (he ▸ hc)
          have hne2 : c ≠ ';' := fun he => h2 (he ▸ hc)
          simp [hne1, hne2])]
      simp only [List.reverse_nil, List.filter_cons,
        show containsSub (("(disorder)").data) [] = false from rfl,
        Bool.false_eq_true, if_false]

theorem extract_conditions_spec_witness :
    extract_conditions ("no block here") = [] ∧
    extract_conditions ⟨("Conditions:").data ++ '\n' :: joinNL [("A (disorder)").data] ++
        '\n' :: '\n' :: ("Medications:").data⟩ = [("A").data] := by
  constructor
  · exact extract_conditions_spec.1 ("no block here") (by decide)
  · rw [extract_conditions_spec.2.1 [("A (disorder)").data] (by decide)]
    rfl

theorem getLast?_cons_of_ne_nil (x : Char) (l : List Char) (h : l ≠ []) :
    (x :: l).getLast? = l.getLast? := by
  rcases l with _ | ⟨y, ys⟩
  · exact absurd rfl h
  · exact List.getLast?_cons_cons

theorem bodyOf_cons (d : List Char) (ds : List (List Char)) :
    bodyOf (d :: ds) = ' ' :: '*' :: ' ' :: (d ++ bodyOf ds) := by
  simp [bodyOf]

theorem bodyOf_ne_nil (d : List Char) (ds : List (List Char)) : bodyOf (d :: ds) ≠ [] := by
  rw [bodyOf_cons]
  simp

theorem cleanDetailB_parts (d : List Char) (h : cleanDetailB d = true) :
    d ≠ [] ∧ noEdgeSpace d = true ∧ d.contains '*' = false := by
  rw [cleanDetailB, Bool.and_eq_true, Bool.and_eq_true] at h
  obtain ⟨⟨h1, h2⟩, h3⟩ := h
  refine ⟨by simpa using h1, h2, by simpa using h3⟩

theorem cleanCondB_parts (c : List Char) (h : cleanCondB c = true) :
    c ≠ [] ∧ noEdgeSpace c = true ∧ c.contains '*' = false ∧ c.contains ':' = false ∧
      containsSub preamblePhrase c = false := by
  rw [cleanCondB, Bool.and_eq_true, Bool.and_eq_true, Bool.and_eq_true, Bool.and_eq_true] at h
  obtain ⟨⟨⟨⟨h1, h2⟩, h3⟩, h4⟩, h5⟩ := h
  exact ⟨by simpa using h1, h2, by simpa using h3, by simpa using h4, by simpa using h5⟩

theorem cleanEntryB_parts (e : List Char × List (List Char)) (h : cleanEntryB e = true) :
    cleanCondB e.1 = true ∧ e.2 ≠ [] ∧ ∀ d ∈ e.2, cleanDetailB d = true := by
  rw [cleanEntryB, Bool.and_eq_true, Bool.and_eq_true] at h
  obtain ⟨⟨h1, h2⟩, h3⟩ := h
  exact ⟨h1, by simpa using h2, List.all_eq_true.mp h3⟩

theorem noEdgeSpace_concat (c : List Char) (ch : Char) (hc : noEdgeSpace c = true)
    (hne : c ≠ []) (hch : isPySpace ch = false) : noEdgeSpace (c ++ [ch]) = true := by
  rcases c with _ | ⟨a, as⟩
  · exact absurd rfl hne
  · rw [noEdgeSpace, Bool.and_eq_true] at hc
    rw [noEdgeSpace, Bool.and_eq_true]
    constructor
    · rw [List.cons_append, List.head?_cons]
      simpa [List.head?_cons] using hc.1
    · rw [List.getLast?_concat]
      simpa using hch

theorem mdTitle_colonToken (c : List Char) (hne : c ≠ []) (hns : noEdgeSpace c = true)
    (hnc : c.contains ':' = false) : mdTitle (c ++ [':']) = c := by
  unfold mdTitle
  rw [pyStrip_noEdge (c ++ [':']) (noEdgeSpace_concat c ':' hns hne (by decide))]
  rw [List.filter_append]
  have h1 : c.filter (fun x => x ≠ ':') = c := by
    apply List.filter_eq_self.mpr
    intro a ha
    have : a ≠ ':' := by
      intro he
      subst he
      exact (by simpa using hnc : ':' ∉ c) ha
    simpa using this
  rw [h1]
  simp

theorem bodyOf_getLast_nospace : ∀ (ds : List (List Char)) (d : List Char),
    cleanDetailB d = true → (∀ x ∈ ds, cleanDetailB x = true) →
    ∃ ch, (d ++ bodyOf ds).getLast? = Option.some ch ∧ isPySpace ch = false := by
  intro ds
  induction ds with
  | nil =>
    intro d hd _
    obtain ⟨hdne, hdns, _⟩ := cleanDetailB_parts d hd
    rw [show bodyOf [] = [] from rfl, List.append_nil]
    rw [noEdgeSpace, Bool.and_eq_true] at hdns
    cases hgl : d.getLast? with
    | none => exact absurd (List.getLast?_eq_none_iff.mp hgl) hdne
    | some ch =>
      refine ⟨ch, rfl, ?_⟩
      have := hdns.2
      rw [hgl] at this
      simpa using this
  | cons d2 ds2 ih =>
    intro d hd h2
    obtain ⟨ch, hch, hns⟩ := ih d2 (h2 d2 (List.mem_cons_self d2 ds2))
      (fun x hx => h2 x (List.mem_cons_of_mem d2 hx))
    refine ⟨ch, ?_, hns⟩
    have hd2ne : d2 ++ bodyOf ds2 ≠ [] := by
      intro he
      exact (cleanDetailB_parts d2 (h2 d2 (List.mem_cons_self d2 ds2))).1
        (List.append_eq_nil.mp he).1
    rw [bodyOf_cons]
    rw [List.getLast?_append_of_ne_nil d (by simp)]
    rw [getLast?_cons_of_ne_nil ' ' _ (by simp), getLast?_cons_of_ne_nil '*' _ (by simp),
      getLast?_cons_of_ne_nil ' ' _ hd2ne]
    exact hch

theorem hasPrefixCL_cons (p c : Char) (ps cs : List Char) :
    hasPrefixCL (p :: ps) (c :: cs) = (p = c && hasPrefixCL ps cs) := rfl

theorem splitStar2Aux_bodyOf (x : List Char) : ∀ (ds : List (List Char)) (acc : List Char),
    (∀ d ∈ ds, cleanDetailB d = true) →
    splitStar2Aux (bodyOf ds ++ x) acc = splitStar2Aux x ((bodyOf ds).reverse ++ acc) := by
  intro ds
  induction ds with
  | nil => intro acc _; simp [bodyOf]
  | cons d ds ih =>
    intro acc h
    obtain ⟨hdne, hdns, hdstar⟩ := cleanDetailB_parts d (h d (List.mem_cons_self d ds))
    rcases d with _ | ⟨d1, dr⟩
    · exact absurd rfl hdne
    · rw [bodyOf_cons]
      rw [List.cons_append, List.cons_append, List.cons_append]
      rw [splitStar2Aux_cons2, if_neg (by decide)]
      rw [splitStar2Aux_cons2, if_neg (by decide)]
      rw [show (d1 :: dr ++ bodyOf ds) ++ x = d1 :: ((dr ++ bodyOf ds) ++ x) from by simp]
      rw [splitStar2Aux_cons2, if_neg (by simp)]
      rw [show d1 :: ((dr ++ bodyOf ds) ++ x) = (d1 :: dr) ++ (bodyOf ds ++ x) from by simp]
      rw [splitStar2Aux_consume (bodyOf ds ++ x) (d1 :: dr) _ hdstar]
      rw [ih _ (fun y hy => h y (List.mem_cons_of_mem _ hy))]
      simp [List.reverse_append, List.append_assoc]

theorem renderPlanCL_shape (e : List Char × List (List Char))
    (rest : List (List Char × List (List Char))) :
    ∃ Y, renderPlanCL (e :: rest) = '*' :: '*' :: Y := by
  rcases rest with _ | ⟨f, more⟩
  · exact ⟨e.1 ++ ':' :: '*' :: '*' :: bodyOf e.2, rfl⟩
  · exact ⟨(e.1 ++ ':' :: '*' :: '*' :: bodyOf e.2) ++ ' ' :: renderPlanCL (f :: more), rfl⟩

theorem splitStar2_render : ∀ (plan : List (List Char × List (List Char))),
    (∀ e ∈ plan, cleanEntryB e = true) → ∀ (acc : List Char), plan ≠ [] →
    splitStar2Aux (renderPlanCL plan) acc = acc.reverse :: planTokens plan := by
  intro plan
  induction plan with
  | nil => intro _ acc hne; exact absurd rfl hne
  | cons e rest ih =>
    intro h acc _
    obtain ⟨hcond, hdsne, hds⟩ := cleanEntryB_parts e (h e (List.mem_cons_self e rest))
    obtain ⟨hcne, hcns, hcstar, hccolon, hcpre⟩ := cleanCondB_parts e.1 hcond
    rcases rest with _ | ⟨f, more⟩
    · show splitStar2Aux (renderEntryCL e.1 e.2) acc = acc.reverse :: planTokens [e]
      unfold renderEntryCL
      rw [splitStar2Aux_cons2, if_pos (by decide)]
      rw [splitStar2Aux_consume _ e.1 [] hcstar]
      rw [splitStar2Aux_cons2, if_neg (by decide)]
      rw [splitStar2Aux_cons2, if_pos (by decide)]
      rw [show bodyOf e.2 = bodyOf e.2 ++ [] from (List.append_nil _).symm,
        splitStar2Aux_bodyOf [] e.2 [] hds, splitStar2Aux_nil]
      show _ = acc.reverse :: (e.1 ++ [':']) :: [bodyOf e.2]
      simp
    · show splitStar2Aux (renderEntryCL e.1 e.2 ++ ' ' :: renderPlanCL (f :: more)) acc =
        acc.reverse :: planTokens (e :: f :: more)
      obtain ⟨Y, hY⟩ := renderPlanCL_shape f more
      unfold renderEntryCL
      rw [show ('*' :: '*' :: (e.1 ++ ':' :: '*' :: '*' :: bodyOf e.2)) ++
          ' ' :: renderPlanCL (f :: more) =
        '*' :: '*' :: (e.1 ++ ':' :: '*' :: '*' ::
          (bodyOf e.2 ++ ' ' :: renderPlanCL (f :: more))) from by simp]
      rw [splitStar2Aux_cons2, if_pos (by decide)]
      rw [splitStar2Aux_consume _ e.1 [] hcstar]
      rw [splitStar2Aux_cons2, if_neg (by decide)]
      rw [splitStar2Aux_cons2, if_pos (by decide)]
      rw [splitStar2Aux_bodyOf (' ' :: renderPlanCL (f :: more)) e.2 [] hds]
      rw [hY]
      rw [splitStar2Aux_cons2, if_neg (by decide)]
      rw [← hY]
      rw [ih (fun x hx => h x (List.mem_cons_of_mem e hx)) _ (by simp)]
      show _ = acc.reverse :: (e.1 ++ [':']) :: (bodyOf e.2 ++ [' ']) :: planTokens (f :: more)
      simp

theorem pyStrip_bodyOf (d : List Char) (ds : List (List Char))
    (hd : cleanDetailB d = true) (hds : ∀ x ∈ ds, cleanDetailB x = true) :
    pyStrip (bodyOf (d :: ds)) = '*' :: ' ' :: (d ++ bodyOf ds) := by
  rw [bodyOf_cons]
  rw [pyStrip_cons_space ' ' _ (by decide)]
  apply pyStrip_noEdge
  rw [noEdgeSpace, Bool.and_eq_true]
  constructor
  · simp [isPySpace]
  · obtain ⟨ch, hch, hns⟩ := bodyOf_getLast_nospace ds d hd hds
    rw [getLast?_cons_of_ne_nil '*' _ (by simp),
      getLast?_cons_of_ne_nil ' ' _ (fun he =>
        (cleanDetailB_parts d hd).1 (List.append_eq_nil.mp he).1)]
    rw [hch]
    simpa using hns

theorem splitPredAux_bodyToks : ∀ (ds : List (List Char)) (d : List Char),
    cleanDetailB d = true → (∀ x ∈ ds, cleanDetailB x = true) →
    splitPredAux (fun c => c = '*') (' ' :: (d ++ bodyOf ds)) [] = bodyToks d ds := by
  intro ds
  induction ds with
  | nil =>
    intro d hd _
    rw [show bodyOf [] = [] from rfl, List.append_nil]
    have hstar := (cleanDetailB_parts d hd).2.2
    have hfree : ∀ c ∈ ' ' :: d, decide (c = '*') = false := by
      intro c hc
      rcases List.mem_cons.mp hc with h1 | h2
      · subst h1; simp
      · have : c ≠ '*' := by
          intro he
          subst he
          exact (by simpa using hstar : '*' ∉ d) h2
        simpa using this
    have hcons := splitPredAux_consume (fun c => decide (c = '*')) [] (' ' :: d) [] hfree
    rw [List.append_nil] at hcons
    rw [hcons]
    simp [splitPredAux, bodyToks]
  | cons d2 ds2 ih =>
    intro d hd h2
    have hstar := (cleanDetailB_parts d hd).2.2
    have hfree : ∀ c ∈ ' ' :: d ++ [' '], decide (c = '*') = false := by
      intro c hc
      rw [List.cons_append, List.mem_cons, List.mem_append] at hc
      rcases hc with h1 | h1 | h1
      · subst h1; simp
      · have : c ≠ '*' := by
          intro he
          subst he
          exact (by simpa using hstar : '*' ∉ d) h1
        simpa using this
      · rw [List.mem_singleton] at h1
        subst h1; simp
    rw [bodyOf_cons]
    rw [show ' ' :: (d ++ ' ' :: '*' :: ' ' :: (d2 ++ bodyOf ds2)) =
      ((' ' :: d ++ [' ']) ++ ('*' :: ' ' :: (d2 ++ bodyOf ds2))) from by simp]
    rw [splitPredAux_consume _ _ (' ' :: d ++ [' ']) [] hfree]
    rw [splitPredAux_emit _ '*' _ _ (by simp)]
    rw [ih d2 (h2 d2 (List.mem_cons_self d2 ds2))
      (fun x hx => h2 x (List.mem_cons_of_mem d2 hx))]
    rw [show bodyToks d (d2 :: ds2) = (' ' :: d ++ [' ']) :: bodyToks d2 ds2 from rfl]
    simp

theorem bodyToks_strip_filter : ∀ (ds : List (List Char)) (d : List Char),
    cleanDetailB d = true → (∀ x ∈ ds, cleanDetailB x = true) →
    ((bodyToks d ds).map pyStrip).filter (fun x => x ≠ []) = d :: ds := by
  intro ds
  induction ds with
  | nil =>
    intro d hd _
    obtain ⟨hdne, hdns, _⟩ := cleanDetailB_parts d hd
    rw [show bodyToks d [] = [' ' :: d] from rfl]
    rw [List.map_singleton, pyStrip_cons_space ' ' d (by decide), pyStrip_noEdge d hdns]
    simp [hdne]
  | cons d2 ds2 ih =>
    intro d hd h2
    obtain ⟨hdne, hdns, _⟩ := cleanDetailB_parts d hd
    rw [show bodyToks d (d2 :: ds2) = (' ' :: d ++ [' ']) :: bodyToks d2 ds2 from rfl]
    rw [List.map_cons]
    rw [show pyStrip (' ' :: d ++ [' ']) = d from by
      rw [List.cons_append, pyStrip_cons_space ' ' _ (by decide),
        pyStrip_append_space d ' ' (by decide), pyStrip_noEdge d hdns]]
    rw [List.filter_cons_of_pos (by simpa using hdne)]
    rw [ih d2 (h2 d2 (List.mem_cons_self d2 ds2))
      (fun x hx => h2 x (List.mem_cons_of_mem d2 hx))]

theorem mdDetails_bodyOf (d : List Char) (ds : List (List Char))
    (hd : cleanDetailB d = true) (hds : ∀ x ∈ ds, cleanDetailB x = true) :
    mdDetails (bodyOf (d :: ds)) = d :: ds := by
  unfold mdDetails
  rw [pyStrip_bodyOf d ds hd hds]
  unfold splitPred
  rw [splitPredAux_emit _ '*' _ _ (by simp)]
  rw [splitPredAux_bodyToks ds d hd hds]
  rw [List.reverse_nil, List.map_cons]
  rw [show pyStrip ([] : List Char) = [] from rfl]
  rw [List.filter_cons_of_neg (by simp)]
  exact bodyToks_strip_filter ds d hd hds

theorem mdDetails_bodyOf_space (d : List Char) (ds : List (List Char))
    (hd : cleanDetailB d = true) (hds : ∀ x ∈ ds, cleanDetailB x = true) :
    mdDetails (bodyOf (d :: ds) ++ [' ']) = d :: ds := by
  unfold mdDetails
  rw [pyStrip_append_space _ ' ' (by decide)]
  rw [pyStrip_bodyOf d ds hd hds]
  unfold splitPred
  rw [splitPredAux_emit _ '*' _ _ (by simp)]
  rw [splitPredAux_bodyToks ds d hd hds]
  rw [List.reverse_nil, List.map_cons]
  rw [show pyStrip ([] : List Char) = [] from rfl]
  rw [List.filter_cons_of_neg (by simp)]
  exact bodyToks_strip_filter ds d hd hds

theorem mdPairs_cons2 (t b : List Char) (rest : List (List Char)) :
    mdPairs (t :: b :: rest) =
      if containsSub preamblePhrase (mdTitle t) || (mdTitle t).isEmpty then mdPairs rest
      else if !(mdTitle t).isEmpty && !(mdDetails b).isEmpty then
        mkEntry (mdTitle t) (mdDetails b) :: mdPairs rest
      else mdPairs rest := rfl

theorem mdPairs_planTokens : ∀ (plan : List (List Char × List (List Char))),
    (∀ e ∈ plan, cleanEntryB e = true) →
    mdPairs (planTokens plan) = plan.map (fun e => mkEntry e.1 e.2) := by
  intro plan
  induction plan with
  | nil => intro _; rfl
  | cons e rest ih =>
    intro h
    obtain ⟨hcond, hdsne, hds⟩ := cleanEntryB_parts e (h e (List.mem_cons_self e rest))
    obtain ⟨hcne, hcns, hcstar, hccolon, hcpre⟩ := cleanCondB_parts e.1 hcond
    have htitle : mdTitle (e.1 ++ [':']) = e.1 := mdTitle_colonToken e.1 hcne hcns hccolon
    have hie : e.1.isEmpty = false := by simpa using hcne
    rcases hd2 : e.2 with _ | ⟨d, ds⟩
    · exact absurd hd2 hdsne
    have hdd : cleanDetailB d = true := hds d (by rw [hd2]; exact List.mem_cons_self d ds)
    have hdds : ∀ x ∈ ds, cleanDetailB x = true := fun x hx =>
      hds x (by rw [hd2]; exact List.mem_cons_of_mem d hx)
    rcases rest with _ | ⟨f, more⟩
    · show mdPairs [e.1 ++ [':'], bodyOf e.2] = [mkEntry e.1 e.2]
      rw [mdPairs_cons2, htitle]
      rw [if_neg (by rw [hcpre, hie]; simp)]
      rw [hd2, mdDetails_bodyOf d ds hdd hdds]
      rw [if_pos (by rw [hie]; simp)]
      rfl
    · show mdPairs ((e.1 ++ [':']) :: (bodyOf e.2 ++ [' ']) :: planTokens (f :: more)) =
        mkEntry e.1 e.2 :: (f :: more).map (fun x => mkEntry x.1 x.2)
      rw [mdPairs_cons2, htitle]
      rw [if_neg (by rw [hcpre, hie]; simp)]
      rw [hd2, mdDetails_bodyOf_space d ds hdd hdds]
      rw [if_pos (by rw [hie]; simp)]
      rw [ih (fun x hx => h x (List.mem_cons_of_mem e hx))]

theorem pvVal_star (fuel : Nat) (Y : List Char) :
    pvVal (fuel + 1) ('*' :: Y) = Option.none := rfl

theorem literal_eval_star (s : String) (Y : List Char) (h : s.data = '*' :: Y) :
    literal_eval s = Option.none := by
  unfold literal_eval
  rw [h]
  rw [show s.length + 2 = s.length + 1 + 1 from rfl]
  rw [pvVal_star (s.length + 1) Y]

/-- C9 amended: the markdown rendering of a plan round-trips through
`parse_treatment_plan` — recovering every heading and detail verbatim, in
order — whenever the plan's entries are clean for the markdown surface:
conditions and details non-empty and free of surrounding whitespace,
no `*` in either, no `:` in conditions, conditions not containing the
preamble phrase, and the rendered text not containing the failure
markers. -/
theorem roundtrip_clean_plans (plan : List (List Char × List (List Char)))
    (hclean : ∀ e ∈ plan, cleanEntryB e = true)
    (hguard : planGuard (render_as_markdown plan) = false) :
    parse_treatment_plan (render_as_markdown plan) =
      plan.map (fun e => mkEntry e.1 e.2) := by
  rcases plan with _ | ⟨e, rest⟩
  · rfl
  · obtain ⟨Y, hY⟩ := renderPlanCL_shape e rest
    have hlit : literal_eval (render_as_markdown (e :: rest)) = Option.none := by
      apply literal_eval_star _ ('*' :: Y)
      rw [show (render_as_markdown (e :: rest)).data = renderPlanCL (e :: rest) from rfl, hY]
    rw [parse_eq_mdParse _ hguard (fun xs hxs => by rw [hlit] at hxs; cases hxs)]
    unfold mdParse
    rw [show (render_as_markdown (e :: rest)).data = renderPlanCL (e :: rest) from rfl]
    unfold splitStar2
    rw [splitStar2_render (e :: rest) hclean [] (by simp)]
    rw [List.reverse_nil, List.tail_cons]
    exact mdPairs_planTokens (e :: rest) hclean

/-- C9 counterexample: the plan `[(condition: a:b, details: [d])]` is
producible by the structured-literal path (first conjunct), yet rendering
it as markdown and re-parsing yields condition `ab` — the parser deletes
colons from headings — so the round-trip does not preserve heading
text. -/
theorem roundtrip_fails_on_colon_condition :
    parse_treatment_plan ("[\x7b\"condition\": \"a:b\", \"details\": [\"d\"]\x7d]") =
      [mkEntry (("a:b").data) [("d").data]] ∧
    parse_treatment_plan (render_as_markdown [(("a:b").data, [("d").data])]) =
      [mkEntry (("ab").data) [("d").data]] :=
  ⟨rfl, rfl⟩

theorem roundtrip_clean_plans_witness :
    parse_treatment_plan (render_as_markdown
      [(("Hypertension").data, [("Reduce sodium").data, ("Monitor BP").data])]) =
      [mkEntry (("Hypertension").data) [("Reduce sodium").data, ("Monitor BP").data]] :=
  roundtrip_clean_plans
    [(("Hypertension").data, [("Reduce sodium").data, ("Monitor BP").data])]
    (by decide) (by rfl)

end CARE
